import Mathlib

/-!
Verification of the Dynamic Gantt scheduling core
(`src/dynamic-gantt-sheet.py`): the record model (`Job`), the quantity
allocator (`allocate_poles`), the resource scheduler
(`perform_scheduling`) and the aggregation step (`aggregate_data`).

Numeric cell values are modelled exactly as rationals, dates as integer
day counts (adding `timedelta(days = k)` is `+ k`), and the ambient
clock reads of `datetime.now()` as an explicit input stream.  Python's
`sorted` with a key is a stable sort, embedded as `List.insertionSort`
on the key, which is stable.
-/

namespace DynamicGantt

/-- Module constant `POLES_PER_DAY = 1.2`, as the exact rational 6/5. -/
def POLES_PER_DAY : ℚ := 6 / 5

/-- Module constant `PLACEHOLDER_CREW`. -/
def PLACEHOLDER_CREW : String := "Ramp-Up Crew (Estimate)"

/-- The work item: class `Job` of the source, with identifiers, the
assigned crew, the ordering key `placement`, the pole count and the two
schedule dates (unset until `perform_scheduling` fills them). -/
structure Job where
  wr : String
  scope : String
  phase : String
  crew : String
  placement : Int
  poles : ℚ
  start_date : Option Int
  end_date : Option Int
deriving DecidableEq

/-- Constructor `Job.__init__`: `self.placement = placement or 9999` replaces a
missing or zero (falsy) placement with the sentinel 9999, and
`self.poles = float(poles or 0)` replaces a missing or zero pole count
with 0; both dates start out unset (`None`). -/
def mkJob (wr scope phase crew : String) (placement : Option Int)
    (poles : Option ℚ) : Job :=
  { wr := wr, scope := scope, phase := phase, crew := crew
    placement :=
      match placement with
      | none => 9999
      | some p => if p = 0 then 9999 else p
    poles :=
      match poles with
      | none => 0
      | some q => if q = 0 then 0 else q
    start_date := none
    end_date := none }

/-- Method `Job.duration_days` with the module constant made explicit:
`int(math.ceil(self.poles / rate)) if self.poles > 0 else 0`. -/
def duration_days_rate (rate : ℚ) (j : Job) : Int :=
  if 0 < j.poles then ⌈j.poles / rate⌉ else 0

/-- Method `Job.duration_days`, at the configured `POLES_PER_DAY`. -/
def Job.duration_days (j : Job) : Int :=
  duration_days_rate POLES_PER_DAY j

/-- The jobs of one scope: the group `jobs_by_scope[scope]` that
`allocate_poles` builds, in input order. -/
def scopeJobs (all_jobs : List Job) (s : String) : List Job :=
  all_jobs.filter (fun k => k.scope == s)

/-- Quantity `assigned_poles`: the sum of the truthy pole counts of a scope. -/
def assignedSum (all_jobs : List Job) (s : String) : ℚ :=
  (((scopeJobs all_jobs s).filter (fun k => !(k.poles == 0))).map Job.poles).sum

/-- List `jobs_to_allocate`: the jobs of a scope with falsy pole count. -/
def toAllocate (all_jobs : List Job) (s : String) : List Job :=
  (scopeJobs all_jobs s).filter (fun k => k.poles == 0)

/-- Quantity `remaining_poles`: the scope total (defaulting to 0, as in
`scope_to_poles.get(scope, 0)`) minus the already assigned sum. -/
def remainder (scope_to_poles : String → Option ℚ) (all_jobs : List Job)
    (s : String) : ℚ :=
  (scope_to_poles s).getD 0 - assignedSum all_jobs s

/-- The body of `allocate_poles` seen from one job `j` of `all_jobs`:
a scope with falsy total is skipped (`if not total_poles: continue`),
and a job with falsy pole count whose scope has a positive remainder
receives `int(math.ceil(remaining_poles / len(jobs_to_allocate)))`. -/
def allocateJob (scope_to_poles : String → Option ℚ) (all_jobs : List Job)
    (j : Job) : Job :=
  if (scope_to_poles j.scope).getD 0 = 0 then j
  else if j.poles = 0 ∧ 0 < remainder scope_to_poles all_jobs j.scope then
    { j with poles :=
        ((⌈remainder scope_to_poles all_jobs j.scope /
            ((toAllocate all_jobs j.scope).length : ℚ)⌉ : Int) : ℚ) }
  else j

/-- Function `allocate_poles`: every job of the list is updated in place by the
per-scope allocation pass; scopes are disjoint, so the pass is the map
of `allocateJob` over the list. -/
def allocate_poles (scope_to_poles : String → Option ℚ)
    (all_jobs : List Job) : List Job :=
  all_jobs.map (allocateJob scope_to_poles all_jobs)

/-- The sort key of `sorted(jobs, key=lambda j: j.placement)`. -/
def jobLE (a b : Job) : Prop := a.placement ≤ b.placement

instance : DecidableRel jobLE := fun a b =>
  inferInstanceAs (Decidable (a.placement ≤ b.placement))

instance : IsTotal Job jobLE := ⟨fun a b => le_total a.placement b.placement⟩

instance : IsTrans Job jobLE := ⟨fun _ _ _ h1 h2 => le_trans h1 h2⟩

/-- The call `sorted(jobs, key=lambda j: j.placement)`: a stable sort by the
placement key, embedded as insertion sort (stable sorts by a key agree
on every input). -/
def sortJobs (jobs : List Job) : List Job :=
  jobs.insertionSort jobLE

/-- The cursor walk of `perform_scheduling` over one crew's sorted
jobs: a job of positive duration gets `start = cursor`,
`end = cursor + (duration - 1)`, and the cursor moves to `end + 1`;
a job of non-positive duration is passed over unchanged. -/
def scheduleGo : Int → List Job → List Job
  | _, [] => []
  | cur, j :: rest =>
    let d := j.duration_days
    if 0 < d then
      { j with start_date := some cur, end_date := some (cur + (d - 1)) }
        :: scheduleGo ((cur + (d - 1)) + 1) rest
    else
      j :: scheduleGo cur rest

/-- One crew's pass of `perform_scheduling`: sort by placement, then
walk the cursor from this crew's initial `datetime.now()` reading. -/
def scheduleCrew (now : Int) (jobs : List Job) : List Job :=
  scheduleGo now (sortJobs jobs)

/-- The walk `scheduleGo` with the rate constant made explicit, to state what
the pipeline does under a non-positive configured rate. -/
def scheduleGoRate (rate : ℚ) : Int → List Job → List Job
  | _, [] => []
  | cur, j :: rest =>
    let d := duration_days_rate rate j
    if 0 < d then
      { j with start_date := some cur, end_date := some (cur + (d - 1)) }
        :: scheduleGoRate rate ((cur + (d - 1)) + 1) rest
    else
      j :: scheduleGoRate rate cur rest

/-- The crews in first-appearance order: iteration order of the
`defaultdict` built by `perform_scheduling`. -/
def crewOrder (jobs : List Job) : List String :=
  jobs.foldl (fun acc j => if j.crew ∈ acc then acc else acc ++ [j.crew]) []

/-- Function `perform_scheduling`: group the jobs by crew, and schedule the
i-th crew group from the i-th ambient clock reading — the source calls
`datetime.now()` afresh inside the per-crew loop, so each group's
cursor starts at its own reading `clock i`. -/
def performSchedulingClock (clock : Nat → Int) (jobs : List Job) : List Job :=
  ((crewOrder jobs).enum.map (fun ci =>
    scheduleCrew (clock ci.1) (jobs.filter (fun j => j.crew == ci.2)))).flatten

/-- Modelled from the spec: the scheduler whose per-resource cursor is
initialized from one injected reference now, the same for every
resource group (spec 4.3 step 3). Used to compare the source's
per-group clock reads against the spec's single-parameter wording. -/
def performSchedulingSpecNow (now : Int) (jobs : List Job) : List Job :=
  ((crewOrder jobs).map (fun c =>
    scheduleCrew now (jobs.filter (fun j => j.crew == c)))).flatten

/-- A raw row of the master task list, as read by `aggregate_data`
through `get_cell_value` (a missing cell reads as `None`). -/
structure Record where
  wr : Option String
  scope : Option String
  phase : Option String
  placement : Option Int
  poles : Option ℚ
deriving DecidableEq

/-- Python falsiness of an optional cell string: `None` or `""`. -/
def strFalsy : Option String → Bool
  | none => true
  | some s => s == ""

/-- The expression `wr_to_resource.get(wr) or PLACEHOLDER_CREW`. -/
def crewFor (wr_to_resource : String → Option String) (wr : String) : String :=
  match wr_to_resource wr with
  | none => PLACEHOLDER_CREW
  | some c => if c = "" then PLACEHOLDER_CREW else c

/-- Function `aggregate_data`, returning the aggregated jobs together with the
warnings it logs: a row with falsy Work Request is skipped silently
(`if not wr: continue`); a row with falsy Scope or Phase is skipped
with a warning; any other row becomes a `Job`. -/
def aggregate_data (res : String → Option String) :
    List Record → List Job × List String
  | [] => ([], [])
  | r :: rs =>
    let rest := aggregate_data res rs
    if strFalsy r.wr then rest
    else if strFalsy r.scope || strFalsy r.phase then
      (rest.1, "Skipping WR due to missing Scope or Phase." :: rest.2)
    else
      (mkJob (r.wr.getD "") (r.scope.getD "") (r.phase.getD "")
        (crewFor res (r.wr.getD "")) r.placement r.poles :: rest.1, rest.2)

/-- A row that survives `aggregate_data`: all three identifiers truthy. -/
def validRec (r : Record) : Bool :=
  !strFalsy r.wr && !(strFalsy r.scope || strFalsy r.phase)

/-- A row for which `aggregate_data` logs a warning: truthy Work
Request but falsy Scope or Phase. -/
def warnRec (r : Record) : Bool :=
  !strFalsy r.wr && (strFalsy r.scope || strFalsy r.phase)

/-- The job built from a surviving row. -/
def buildJob (res : String → Option String) (r : Record) : Job :=
  mkJob (r.wr.getD "") (r.scope.getD "") (r.phase.getD "")
    (crewFor res (r.wr.getD "")) r.placement r.poles

/-- The sort key relation lifted to index-annotated jobs, to reason
about the stability of the scheduler's sort. -/
def jobLEPair (a b : Nat × Job) : Prop := a.2.placement ≤ b.2.placement

instance : DecidableRel jobLEPair := fun a b =>
  inferInstanceAs (Decidable (a.2.placement ≤ b.2.placement))

/-- Concrete scope totals for the allocator witnesses. -/
def wTotals : String → Option ℚ := fun s => if s == "S1" then some 30 else none

/-- Concrete job list for the allocator witnesses: one job of scope
S1 with no pole count. -/
def wJobs : List Job := [mkJob "W1" "S1" "P1" "c" none none]

/-! ### C7: duration is the exact ceiling of quantity over rate -/

/-- C7: for every work item and positive rate, the duration is
`ceil(quantity / rate)` in exact arithmetic when the quantity is
positive and `0` when the quantity is `0`; with the configured rate
1.2, quantity 12 gives 10 days and quantity 6 gives 5 days. -/
theorem duration_is_exact_ceil (j : Job) (rate : ℚ) (_hrate : 0 < rate) :
    (0 < j.poles → duration_days_rate rate j = ⌈j.poles / rate⌉)
    ∧ (j.poles = 0 → duration_days_rate rate j = 0)
    ∧ Job.duration_days (mkJob "w" "s" "p" "c" none (some 12)) = 10
    ∧ Job.duration_days (mkJob "w" "s" "p" "c" none (some 6)) = 5 := by
  refine ⟨fun h => by simp [duration_days_rate, h], fun h => by simp [duration_days_rate, h], ?_, ?_⟩
  · have h12 : ((12 : ℚ) / (6 / 5)) = 10 := by norm_num
    simp [Job.duration_days, duration_days_rate, mkJob, POLES_PER_DAY, h12]
  · have h6 : ((6 : ℚ) / (6 / 5)) = 5 := by norm_num
    simp [Job.duration_days, duration_days_rate, mkJob, POLES_PER_DAY, h6]

/-- Witness for `duration_is_exact_ceil` at a concrete job and rate. -/
theorem duration_is_exact_ceil_witness :
    (0 : ℚ) < 1
    ∧ ((0 < (mkJob "a" "b" "c" "d" none (some 3)).poles →
          duration_days_rate 1 (mkJob "a" "b" "c" "d" none (some 3)) =
            ⌈(mkJob "a" "b" "c" "d" none (some 3)).poles / 1⌉)
        ∧ ((mkJob "a" "b" "c" "d" none (some 3)).poles = 0 →
            duration_days_rate 1 (mkJob "a" "b" "c" "d" none (some 3)) = 0)
        ∧ Job.duration_days (mkJob "w" "s" "p" "c" none (some 12)) = 10
        ∧ Job.duration_days (mkJob "w" "s" "p" "c" none (some 6)) = 5) :=
  ⟨by norm_num, duration_is_exact_ceil (mkJob "a" "b" "c" "d" none (some 3)) 1 (by norm_num)⟩

/-! ### C4: zero-quantity items are skipped without advancing the cursor -/

/-- C4: a work item whose quantity is 0 has duration 0, and the
scheduler's cursor walk passes it through unchanged — its `start` and
`end` stay as they were (unset in the pipeline, where every job enters
scheduling with both dates `none`) and the rest of the queue is
scheduled from the very same cursor. -/
theorem zero_quantity_skipped (cur : Int) (j : Job) (rest : List Job)
    (h : j.poles = 0) :
    Job.duration_days j = 0
    ∧ scheduleGo cur (j :: rest) = j :: scheduleGo cur rest := by
  have hd : Job.duration_days j = 0 := by
    simp [Job.duration_days, duration_days_rate, h]
  exact ⟨hd, by simp [scheduleGo, hd]⟩

/-- Witness for `zero_quantity_skipped` at a concrete cursor and job. -/
theorem zero_quantity_skipped_witness :
    (mkJob "w" "s" "p" "c" none none).poles = 0
    ∧ (Job.duration_days (mkJob "w" "s" "p" "c" none none) = 0
        ∧ scheduleGo 7 [mkJob "w" "s" "p" "c" none none] =
            mkJob "w" "s" "p" "c" none none :: scheduleGo 7 []) :=
  ⟨rfl, zero_quantity_skipped 7 (mkJob "w" "s" "p" "c" none none) [] rfl⟩

/-! ### C6: behaviour of the pipeline under a non-positive rate -/

/-- C6 counterexample: the source contains no rate validation and no
`ConfigurationError`; the rate is the hardcoded constant
`POLES_PER_DAY = 1.2`.  Making the configured rate negative does not
abort the run before scheduling: here scheduling runs to completion
with rate -1 on a positive-quantity job and returns the whole job
list, contradicting the claim that nothing is returned. -/
theorem negative_rate_run_returns :
    scheduleGoRate (-1) 0 [mkJob "WR1" "S1" "P1" "Crew A" (some 1) (some 12)] =
      [mkJob "WR1" "S1" "P1" "Crew A" (some 1) (some 12)]
    ∧ 0 < (mkJob "WR1" "S1" "P1" "Crew A" (some 1) (some 12)).poles := by
  constructor
  · have : duration_days_rate (-1) (mkJob "WR1" "S1" "P1" "Crew A" (some 1) (some 12)) =
        ⌈((12 : ℚ)) / (-1)⌉ := by
      simp [duration_days_rate, mkJob]
    simp [scheduleGoRate, this]
  · simp [mkJob]

/-- C6 amended: with a negative configured rate every duration is
non-positive, so the scheduler's cursor walk completes normally and
returns every job unchanged, with no date assigned: the run is not
aborted and no error is raised. -/
theorem negative_rate_no_abort (rate : ℚ) (hrate : rate < 0) (cur : Int)
    (jobs : List Job) :
    scheduleGoRate rate cur jobs = jobs := by
  induction jobs generalizing cur with
  | nil => rfl
  | cons j rest ih =>
    have hd : ¬ 0 < duration_days_rate rate j := by
      unfold duration_days_rate
      split
      · next hp =>
        have hq : j.poles / rate ≤ ((0 : Int) : ℚ) := by
          push_cast
          exact div_nonpos_iff.mpr (Or.inl ⟨le_of_lt hp, le_of_lt hrate⟩)
        have := Int.ceil_le.mpr hq
        omega
      · omega
    simp [scheduleGoRate, hd, ih]

/-- Witness for `negative_rate_no_abort` at a concrete rate and job. -/
theorem negative_rate_no_abort_witness :
    (-1 : ℚ) < 0
    ∧ scheduleGoRate (-1) 3 [mkJob "w" "s" "p" "c" none (some 5)] =
        [mkJob "w" "s" "p" "c" none (some 5)] :=
  ⟨by norm_num, negative_rate_no_abort (-1) (by norm_num) 3 _⟩

/-! ### C9: rows with missing identifiers are excluded -/

/-- C9 counterexample: a row with Scope and Phase present but Work
Request missing is excluded from the output, yet the warning list is
empty — `aggregate_data` hits `if not wr: continue` and skips it
silently, contradicting the claim that the omission of any of the
three identifiers is reported as a warning. -/
theorem missing_wr_no_warning :
    aggregate_data (fun _ => none)
      [{ wr := none, scope := some "S1", phase := some "P1",
         placement := none, poles := none }] = ([], []) := by
  simp [aggregate_data, strFalsy]

/-- C9 amended: every row missing any of the three identifiers is
excluded from the output (the jobs are exactly the valid rows, joined
in input order) and processing continues row by row; a warning is
logged exactly for each row whose Work Request is present but whose
Scope or Phase is missing — a row with a missing Work Request is
skipped without a warning. -/
theorem aggregation_excludes_invalid (res : String → Option String)
    (recs : List Record) :
    (aggregate_data res recs).1 = (recs.filter validRec).map (buildJob res)
    ∧ (aggregate_data res recs).2.length = (recs.filter warnRec).length
    ∧ ∀ r rs, aggregate_data res (r :: rs) =
        ((aggregate_data res [r]).1 ++ (aggregate_data res rs).1,
         (aggregate_data res [r]).2 ++ (aggregate_data res rs).2) := by
  refine ⟨?_, ?_, ?_⟩
  · induction recs with
    | nil => rfl
    | cons r rs ih =>
      by_cases hw : strFalsy r.wr
      · simp [aggregate_data, hw, validRec, List.filter, ih]
      · by_cases hsp : strFalsy r.scope || strFalsy r.phase
        · simp [aggregate_data, hw, hsp, validRec, List.filter, ih]
        · simp [aggregate_data, hw, hsp, validRec, List.filter, ih, buildJob]
  · induction recs with
    | nil => rfl
    | cons r rs ih =>
      by_cases hw : strFalsy r.wr
      · simp [aggregate_data, hw, warnRec, List.filter, ih]
      · by_cases hsp : strFalsy r.scope || strFalsy r.phase
        · simp [aggregate_data, hw, hsp, warnRec, List.filter, ih]
        · simp [aggregate_data, hw, hsp, warnRec, List.filter, ih]
  · intro r rs
    by_cases hw : strFalsy r.wr
    · simp [aggregate_data, hw]
    · by_cases hsp : strFalsy r.scope || strFalsy r.phase
      · simp [aggregate_data, hw, hsp]
      · simp [aggregate_data, hw, hsp]

/-! ### C2: the cursor comes from ambient clock reads, one per crew -/

/-- C2 counterexample: `perform_scheduling` initializes each crew's
cursor with a fresh `datetime.now()` call inside the per-crew loop.
With two crews and clock readings 0 and 1, the two single-job crews
start on different days (0 and 1), while under the spec's wording — a
single injected reference now shared by every resource — both would
start at that same now (both at 0 here).  So the cursor is not
initialized from one injected reference-now parameter. -/
theorem clock_not_injected :
    (performSchedulingClock (fun i => (i : Int))
        [mkJob "W1" "S" "P" "Crew A" (some 1) (some 1),
         mkJob "W2" "S" "P" "Crew B" (some 1) (some 1)]).map Job.start_date
      = [some 0, some 1]
    ∧ (performSchedulingSpecNow 0
        [mkJob "W1" "S" "P" "Crew A" (some 1) (some 1),
         mkJob "W2" "S" "P" "Crew B" (some 1) (some 1)]).map Job.start_date
      = [some 0, some 0]
    ∧ performSchedulingClock (fun i => (i : Int))
        [mkJob "W1" "S" "P" "Crew A" (some 1) (some 1),
         mkJob "W2" "S" "P" "Crew B" (some 1) (some 1)]
      ≠ performSchedulingSpecNow 0
        [mkJob "W1" "S" "P" "Crew A" (some 1) (some 1),
         mkJob "W2" "S" "P" "Crew B" (some 1) (some 1)] := by
  have hd1 : ∀ j : Job, j.poles = 1 → j.duration_days = 1 := by
    intro j hj
    simp [Job.duration_days, duration_days_rate, hj, POLES_PER_DAY]
    norm_num [Int.ceil_eq_iff]
  refine ⟨?_, ?_, ?_⟩ <;>
    simp [performSchedulingClock, performSchedulingSpecNow, crewOrder,
      scheduleCrew, sortJobs, jobLE, scheduleGo, hd1, mkJob,
      List.insertionSort, List.orderedInsert, List.enum, List.enumFrom,
      List.filter]

/-- C2 amended: each resource's cursor is initialized from its own
ambient clock reading, not from one injected parameter; modelling the
reads as an explicit input, the pipeline is a pure function, and when
every read returns the same fixed value `t` the allocator-then-
scheduler pipeline coincides with the spec's single-reference-now
scheduler, so output is identical on repeated invocation with a fixed
clock. -/
theorem fixed_clock_matches_spec (t : Int) (stp : String → Option ℚ)
    (jobs : List Job) :
    performSchedulingClock (fun _ => t) (allocate_poles stp jobs) =
      performSchedulingSpecNow t (allocate_poles stp jobs) := by
  unfold performSchedulingClock performSchedulingSpecNow
  rw [show (fun ci : Nat × String =>
        scheduleCrew ((fun _ : Nat => t) ci.1)
          ((allocate_poles stp jobs).filter (fun j => j.crew == ci.2))) =
      (fun c => scheduleCrew t
        ((allocate_poles stp jobs).filter (fun j => j.crew == c))) ∘ Prod.snd
    from rfl]
  rw [← List.map_map, List.enum_map_snd]

/-! ### Shared allocator lemmas -/

/-- Sum `assigned_poles` is non-negative when every input quantity is. -/
theorem assignedSum_nonneg (jobs : List Job) (s : String)
    (hnn : ∀ j ∈ jobs, 0 ≤ j.poles) : 0 ≤ assignedSum jobs s := by
  apply List.sum_nonneg
  intro x hx
  obtain ⟨j, hj, rfl⟩ := List.mem_map.mp hx
  exact hnn j (List.mem_of_mem_filter (List.mem_of_mem_filter hj))

/-- A zero-quantity job of the scope is in `jobs_to_allocate`. -/
theorem mem_toAllocate (jobs : List Job) (s : String) (j : Job)
    (hj : j ∈ jobs) (hp : j.poles = 0) (hs : j.scope = s) :
    j ∈ toAllocate jobs s := by
  refine List.mem_filter.mpr ⟨List.mem_filter.mpr ⟨hj, ?_⟩, ?_⟩
  · simp [hs]
  · simp [hp]

/-- Conversely, `jobs_to_allocate` holds zero-quantity scope jobs. -/
theorem toAllocate_mem (jobs : List Job) (s : String) (j : Job)
    (hj : j ∈ toAllocate jobs s) : j ∈ jobs ∧ j.poles = 0 ∧ j.scope = s := by
  obtain ⟨hj1, hj2⟩ := List.mem_filter.mp hj
  obtain ⟨hj3, hj4⟩ := List.mem_filter.mp hj1
  exact ⟨hj3, by simpa using hj2, by simpa using hj4⟩

/-! ### C1: conservation with rounding -/

/-- C1: in a scope with unassigned items and a positive remainder,
every unassigned item receives `ceil(remainder / count)`, so the newly
assigned quantities sum to `count * ceil(remainder / count)`, which is
at least the remainder and less than the remainder plus the count. -/
theorem allocator_conservation (stp : String → Option ℚ) (jobs : List Job)
    (s : String)
    (hnn : ∀ j ∈ jobs, 0 ≤ j.poles)
    (hne : toAllocate jobs s ≠ [])
    (hr : 0 < remainder stp jobs s) :
    (∀ j ∈ toAllocate jobs s,
        (allocateJob stp jobs j).poles =
          ((⌈remainder stp jobs s / ((toAllocate jobs s).length : ℚ)⌉ : Int) : ℚ))
    ∧ ((toAllocate jobs s).map (fun j => (allocateJob stp jobs j).poles)).sum =
        ((toAllocate jobs s).length : ℚ) *
          ((⌈remainder stp jobs s / ((toAllocate jobs s).length : ℚ)⌉ : Int) : ℚ)
    ∧ remainder stp jobs s ≤
        ((toAllocate jobs s).length : ℚ) *
          ((⌈remainder stp jobs s / ((toAllocate jobs s).length : ℚ)⌉ : Int) : ℚ)
    ∧ ((toAllocate jobs s).length : ℚ) *
          ((⌈remainder stp jobs s / ((toAllocate jobs s).length : ℚ)⌉ : Int) : ℚ)
        < remainder stp jobs s + ((toAllocate jobs s).length : ℚ) := by
  have hn : 0 < ((toAllocate jobs s).length : ℚ) := by
    have h := List.length_pos.mpr hne
    exact_mod_cast h
  have htot : ¬ (stp s).getD 0 = 0 := by
    intro h
    have h0 := assignedSum_nonneg jobs s hnn
    unfold remainder at hr
    rw [h] at hr
    linarith
  have h1 : ∀ j ∈ toAllocate jobs s,
      (allocateJob stp jobs j).poles =
        ((⌈remainder stp jobs s / ((toAllocate jobs s).length : ℚ)⌉ : Int) : ℚ) := by
    intro j hj
    obtain ⟨hjmem, hp0, hsc⟩ := toAllocate_mem jobs s j hj
    unfold allocateJob
    rw [hsc, if_neg htot, if_pos ⟨hp0, hr⟩]
  have hsum : ((toAllocate jobs s).map
        (fun j => (allocateJob stp jobs j).poles)).sum =
      ((toAllocate jobs s).length : ℚ) *
        ((⌈remainder stp jobs s / ((toAllocate jobs s).length : ℚ)⌉ : Int) : ℚ) := by
    rw [List.map_congr_left h1, List.map_const', List.sum_replicate, nsmul_eq_mul]
  have hceil := Int.le_ceil (remainder stp jobs s / ((toAllocate jobs s).length : ℚ))
  have hceil2 := Int.ceil_lt_add_one
    (remainder stp jobs s / ((toAllocate jobs s).length : ℚ))
  have hle : remainder stp jobs s ≤
      ((toAllocate jobs s).length : ℚ) *
        ((⌈remainder stp jobs s / ((toAllocate jobs s).length : ℚ)⌉ : Int) : ℚ) := by
    have h2 := mul_le_mul_of_nonneg_left hceil (le_of_lt hn)
    have h3 : ((toAllocate jobs s).length : ℚ) *
        (remainder stp jobs s / ((toAllocate jobs s).length : ℚ)) =
        remainder stp jobs s := by
      field_simp
    linarith
  have hlt : ((toAllocate jobs s).length : ℚ) *
        ((⌈remainder stp jobs s / ((toAllocate jobs s).length : ℚ)⌉ : Int) : ℚ)
      < remainder stp jobs s + ((toAllocate jobs s).length : ℚ) := by
    have h2 := mul_lt_mul_of_pos_left hceil2 hn
    have h3 : ((toAllocate jobs s).length : ℚ) *
        (remainder stp jobs s / ((toAllocate jobs s).length : ℚ) + 1) =
        remainder stp jobs s + ((toAllocate jobs s).length : ℚ) := by
      field_simp
    linarith
  exact ⟨h1, hsum, hle, hlt⟩

/-- Witness for `allocator_conservation` on a one-job scope with
total 30: the job receives `ceil(30 / 1) = 30`. -/
theorem allocator_conservation_witness :
    (∀ j ∈ wJobs, 0 ≤ j.poles)
    ∧ toAllocate wJobs "S1" ≠ []
    ∧ 0 < remainder wTotals wJobs "S1"
    ∧ ((∀ j ∈ toAllocate wJobs "S1",
          (allocateJob wTotals wJobs j).poles =
            ((⌈remainder wTotals wJobs "S1" /
                ((toAllocate wJobs "S1").length : ℚ)⌉ : Int) : ℚ))
        ∧ ((toAllocate wJobs "S1").map
              (fun j => (allocateJob wTotals wJobs j).poles)).sum =
            ((toAllocate wJobs "S1").length : ℚ) *
              ((⌈remainder wTotals wJobs "S1" /
                  ((toAllocate wJobs "S1").length : ℚ)⌉ : Int) : ℚ)
        ∧ remainder wTotals wJobs "S1" ≤
            ((toAllocate wJobs "S1").length : ℚ) *
              ((⌈remainder wTotals wJobs "S1" /
                  ((toAllocate wJobs "S1").length : ℚ)⌉ : Int) : ℚ)
        ∧ ((toAllocate wJobs "S1").length : ℚ) *
              ((⌈remainder wTotals wJobs "S1" /
                  ((toAllocate wJobs "S1").length : ℚ)⌉ : Int) : ℚ)
            < remainder wTotals wJobs "S1" +
                ((toAllocate wJobs "S1").length : ℚ)) := by
  have hnn : ∀ j ∈ wJobs, 0 ≤ j.poles := by
    intro j hj
    simp only [wJobs, List.mem_singleton] at hj
    simp [hj, mkJob]
  have hne : toAllocate wJobs "S1" ≠ [] := by
    simp [toAllocate, scopeJobs, wJobs, mkJob, List.filter]
  have hr : 0 < remainder wTotals wJobs "S1" := by
    simp [remainder, wTotals, assignedSum, scopeJobs, wJobs, mkJob, List.filter]
  exact ⟨hnn, hne, hr, allocator_conservation wTotals wJobs "S1" hnn hne hr⟩

/-! ### C8: quantities never go negative -/

/-- C8: starting from non-negative input quantities, every job still
has a non-negative quantity after allocation, for every totals
mapping (negative, zero and absent totals included); moreover an
unassigned job whose scope has a non-positive total or a non-positive
remainder is left at quantity 0. -/
theorem allocation_nonneg (stp : String → Option ℚ) (jobs : List Job)
    (hnn : ∀ j ∈ jobs, 0 ≤ j.poles) :
    (∀ j ∈ allocate_poles stp jobs, 0 ≤ j.poles)
    ∧ ∀ j ∈ jobs, j.poles = 0 →
        ((stp j.scope).getD 0 ≤ 0 ∨ remainder stp jobs j.scope ≤ 0) →
        (allocateJob stp jobs j).poles = 0 := by
  constructor
  · intro j' hj'
    obtain ⟨j, hj, rfl⟩ := List.mem_map.mp hj'
    by_cases h1 : (stp j.scope).getD 0 = 0
    · simpa [allocateJob, h1] using hnn j hj
    · by_cases h2 : j.poles = 0 ∧ 0 < remainder stp jobs j.scope
      · have hmem : j ∈ toAllocate jobs j.scope :=
          mem_toAllocate jobs j.scope j hj h2.1 rfl
        have hn : 0 < ((toAllocate jobs j.scope).length : ℚ) := by
          have h := List.length_pos.mpr (List.ne_nil_of_mem hmem)
          exact_mod_cast h
        have hpos : (0 : Int) < ⌈remainder stp jobs j.scope /
            ((toAllocate jobs j.scope).length : ℚ)⌉ :=
          Int.ceil_pos.mpr (div_pos h2.2 hn)
        unfold allocateJob
        rw [if_neg h1, if_pos h2]
        show (0 : ℚ) ≤ ((⌈remainder stp jobs j.scope /
            ((toAllocate jobs j.scope).length : ℚ)⌉ : Int) : ℚ)
        exact_mod_cast le_of_lt hpos
      · simpa [allocateJob, h1, h2] using hnn j hj
  · intro j hj hp0 hd
    by_cases h1 : (stp j.scope).getD 0 = 0
    · simp [allocateJob, h1, hp0]
    · have hrem : remainder stp jobs j.scope ≤ 0 := by
        rcases hd with hd | hd
        · have hlt : (stp j.scope).getD 0 < 0 := lt_of_le_of_ne hd h1
          have h0 := assignedSum_nonneg jobs j.scope hnn
          unfold remainder
          linarith
        · exact hd
      have hnlt : ¬ 0 < remainder stp jobs j.scope := not_lt.mpr hrem
      simp [allocateJob, h1, hnlt, hp0]

/-- Witness for `allocation_nonneg` on the concrete one-job input. -/
theorem allocation_nonneg_witness :
    (∀ j ∈ wJobs, 0 ≤ j.poles)
    ∧ ((∀ j ∈ allocate_poles wTotals wJobs, 0 ≤ j.poles)
        ∧ ∀ j ∈ wJobs, j.poles = 0 →
            ((wTotals j.scope).getD 0 ≤ 0 ∨ remainder wTotals wJobs j.scope ≤ 0) →
            (allocateJob wTotals wJobs j).poles = 0) := by
  have hnn : ∀ j ∈ wJobs, 0 ≤ j.poles := by
    intro j hj
    simp only [wJobs, List.mem_singleton] at hj
    simp [hj, mkJob]
  exact ⟨hnn, allocation_nonneg wTotals wJobs hnn⟩

/-! ### C3: cascading contiguity -/

/-- The cursor walk on a fresh queue: the scheduled items (those that
received a start date) form a contiguous chain from the initial
cursor, each ending `duration - 1` days after its start, the first
starting exactly at the cursor. -/
theorem scheduleGo_spec (l : List Job) (cur : Int)
    (hfresh : ∀ j ∈ l, j.start_date = none) :
    ((scheduleGo cur l).filter (fun j => j.start_date.isSome)).Chain'
        (fun a b => ∃ e, a.end_date = some e ∧ b.start_date = some (e + 1))
    ∧ (∀ j ∈ (scheduleGo cur l).filter (fun j => j.start_date.isSome),
        ∃ st, j.start_date = some st
          ∧ j.end_date = some (st + (j.duration_days - 1)))
    ∧ ∀ j, ((scheduleGo cur l).filter
        (fun j => j.start_date.isSome)).head? = some j →
        j.start_date = some cur := by
  induction l generalizing cur with
  | nil =>
    refine ⟨List.chain'_nil, ?_, ?_⟩ <;> simp [scheduleGo]
  | cons j rest ih =>
    have hfr : ∀ k ∈ rest, k.start_date = none :=
      fun k hk => hfresh k (List.mem_cons_of_mem _ hk)
    by_cases hd : 0 < j.duration_days
    · have hrest := ih ((cur + (j.duration_days - 1)) + 1) hfr
      have hstep : scheduleGo cur (j :: rest) =
          { j with start_date := some cur,
                   end_date := some (cur + (j.duration_days - 1)) }
            :: scheduleGo ((cur + (j.duration_days - 1)) + 1) rest := by
        simp [scheduleGo, hd]
      have hfilter : (scheduleGo cur (j :: rest)).filter
            (fun k => k.start_date.isSome) =
          { j with start_date := some cur,
                   end_date := some (cur + (j.duration_days - 1)) }
            :: (scheduleGo ((cur + (j.duration_days - 1)) + 1) rest).filter
                (fun k => k.start_date.isSome) := by
        rw [hstep]
        exact List.filter_cons_of_pos (by simp)
      rw [hfilter]
      refine ⟨?_, ?_, ?_⟩
      · refine List.chain'_cons'.mpr ⟨?_, hrest.1⟩
        intro y hy
        exact ⟨cur + (j.duration_days - 1), rfl, hrest.2.2 y hy⟩
      · intro k hk
        rcases List.mem_cons.mp hk with hk | hk
        · subst hk
          exact ⟨cur, rfl, rfl⟩
        · exact hrest.2.1 k hk
      · intro k hk
        simp only [List.head?_cons, Option.some_inj] at hk
        rw [← hk]
    · have hrest := ih cur hfr
      have hstep : scheduleGo cur (j :: rest) =
          j :: scheduleGo cur rest := by
        simp [scheduleGo, hd]
      have hfilter : (scheduleGo cur (j :: rest)).filter
            (fun k => k.start_date.isSome) =
          (scheduleGo cur rest).filter (fun k => k.start_date.isSome) := by
        rw [hstep]
        refine List.filter_cons_of_neg ?_
        simp [hfresh j (List.mem_cons_self j rest)]
      rw [hfilter]
      exact hrest

/-- C3: within one resource group scheduled from the cursor origin
`now`, consecutive scheduled items `a`, `b` (sorted placement order,
zero-duration items skipped) satisfy `b.start = a.end + 1 day`; each
scheduled item's end is its start plus `duration - 1` days; and the
first scheduled item starts exactly at `now`. -/
theorem scheduling_contiguity (now : Int) (jobs : List Job)
    (hfresh : ∀ j ∈ jobs, j.start_date = none) :
    ((scheduleCrew now jobs).filter (fun j => j.start_date.isSome)).Chain'
        (fun a b => ∃ e, a.end_date = some e ∧ b.start_date = some (e + 1))
    ∧ (∀ j ∈ (scheduleCrew now jobs).filter (fun j => j.start_date.isSome),
        ∃ st, j.start_date = some st
          ∧ j.end_date = some (st + (j.duration_days - 1)))
    ∧ ∀ j, ((scheduleCrew now jobs).filter
        (fun j => j.start_date.isSome)).head? = some j →
        j.start_date = some now := by
  have h : ∀ j ∈ sortJobs jobs, j.start_date = none := fun j hj =>
    hfresh j ((List.mem_insertionSort jobLE).mp hj)
  exact scheduleGo_spec (sortJobs jobs) now h

/-- Witness for `scheduling_contiguity` on one fresh positive job. -/
theorem scheduling_contiguity_witness :
    (∀ j ∈ [mkJob "W1" "S1" "P1" "c" (some 1) (some 12)], j.start_date = none)
    ∧ (((scheduleCrew 0 [mkJob "W1" "S1" "P1" "c" (some 1) (some 12)]).filter
          (fun j => j.start_date.isSome)).Chain'
          (fun a b => ∃ e, a.end_date = some e ∧ b.start_date = some (e + 1))
        ∧ (∀ j ∈ (scheduleCrew 0
              [mkJob "W1" "S1" "P1" "c" (some 1) (some 12)]).filter
              (fun j => j.start_date.isSome),
            ∃ st, j.start_date = some st
              ∧ j.end_date = some (st + (j.duration_days - 1)))
        ∧ ∀ j, ((scheduleCrew 0
              [mkJob "W1" "S1" "P1" "c" (some 1) (some 12)]).filter
              (fun j => j.start_date.isSome)).head? = some j →
            j.start_date = some 0) := by
  have hfresh : ∀ j ∈ [mkJob "W1" "S1" "P1" "c" (some 1) (some 12)],
      j.start_date = none := by
    intro j hj
    simp only [List.mem_singleton] at hj
    simp [hj, mkJob]
  exact ⟨hfresh, scheduling_contiguity 0 _ hfresh⟩

/-! ### C5 and C10: sort order, sentinel, stability -/

/-- Inserting an index-annotated job below every index of an already
stable list keeps the list stable. -/
theorem stable_orderedInsert (a : Nat × Job) (l : List (Nat × Job))
    (hl : l.Pairwise (fun x y => x.2.placement = y.2.placement → x.1 < y.1))
    (ha : ∀ b ∈ l, a.1 < b.1) :
    (l.orderedInsert jobLEPair a).Pairwise
      (fun x y => x.2.placement = y.2.placement → x.1 < y.1) := by
  induction l with
  | nil => simp
  | cons b t ih =>
    rw [List.orderedInsert]
    by_cases hab : jobLEPair a b
    · rw [if_pos hab]
      refine List.pairwise_cons.mpr ⟨?_, hl⟩
      intro c hc _
      exact ha c hc
    · rw [if_neg hab]
      obtain ⟨hb, ht⟩ := List.pairwise_cons.mp hl
      refine List.pairwise_cons.mpr
        ⟨?_, ih ht (fun c hc => ha c (List.mem_cons_of_mem _ hc))⟩
      intro c hc heq
      rcases (List.mem_orderedInsert jobLEPair).mp hc with hca | hct
      · subst hca
        exact absurd (le_of_eq heq.symm) hab
      · exact hb c hct heq

/-- Insertion sort by the placement key is stable: on input whose
annotated indices strictly increase, any two equal keys keep their
index order in the output. -/
theorem stable_insertionSort (l : List (Nat × Job))
    (h : l.Pairwise (fun x y => x.1 < y.1)) :
    (l.insertionSort jobLEPair).Pairwise
      (fun x y => x.2.placement = y.2.placement → x.1 < y.1) := by
  induction l with
  | nil => simp
  | cons a t ih =>
    rw [List.insertionSort]
    obtain ⟨ha, ht⟩ := List.pairwise_cons.mp h
    refine stable_orderedInsert a _ (ih ht) ?_
    intro b hb
    exact ha b ((List.mem_insertionSort jobLEPair).mp hb)

/-- Input positions strictly increase along an enumerated job list. -/
theorem enum_pairwise_lt (jobs : List Job) :
    (jobs.enum).Pairwise (fun x y => x.1 < y.1) := by
  have h : ((jobs.enum).map Prod.fst).Pairwise (· < ·) := by
    rw [List.enum_map_fst]
    exact List.pairwise_lt_range _
  exact List.pairwise_map.mp h

/-- Sorting the enumerated jobs and dropping the indices is exactly
the scheduler's sort. -/
theorem enum_sort_project (jobs : List Job) :
    ((jobs.enum).insertionSort jobLEPair).map Prod.snd = sortJobs jobs := by
  have h := List.map_insertionSort (r := jobLEPair) (s := jobLE) Prod.snd
    jobs.enum (fun _ _ _ _ => Iff.rfl)
  rw [List.enum_map_snd] at h
  exact h

/-- C5 counterexample: the sentinel 9999 substituted for an absent
placement does not sort after every explicitly placed item — a job
with explicit placement 10000 sorts after the sentinel-defaulted job,
so the absent-placement job does not come last. -/
theorem sentinel_not_last :
    (mkJob "B" "s" "p" "c" none none).placement = 9999
    ∧ (mkJob "A" "s" "p" "c" (some 10000) none).placement = 10000
    ∧ sortJobs [mkJob "A" "s" "p" "c" (some 10000) none,
                mkJob "B" "s" "p" "c" none none] =
        [mkJob "B" "s" "p" "c" none none,
         mkJob "A" "s" "p" "c" (some 10000) none] := by
  refine ⟨by simp [mkJob], by simp [mkJob], ?_⟩
  have hn : ¬ jobLE (mkJob "A" "s" "p" "c" (some 10000) none)
      (mkJob "B" "s" "p" "c" none none) := by
    show ¬ ((mkJob "A" "s" "p" "c" (some 10000) none).placement ≤
      (mkJob "B" "s" "p" "c" none none).placement)
    simp [mkJob]
  simp [sortJobs, List.insertionSort, List.orderedInsert, hn]

/-- C5 amended: within one resource the scheduler's sort puts items
in non-decreasing placement order, an absent placement is replaced by
the sentinel 9999 at construction (so it sorts after every explicit
placement below 9999, though not after placements of 9999 or more),
and items with equal placement keep their original relative input
order (the sort is stable). -/
theorem ordering_fidelity (jobs : List Job) :
    (sortJobs jobs).Pairwise jobLE
    ∧ ((jobs.enum).insertionSort jobLEPair).map Prod.snd = sortJobs jobs
    ∧ ((jobs.enum).insertionSort jobLEPair).Pairwise
        (fun x y => x.2.placement = y.2.placement → x.1 < y.1)
    ∧ (mkJob "w" "s" "p" "c" none none).placement = 9999 :=
  ⟨List.sorted_insertionSort jobLE jobs, enum_sort_project jobs,
    stable_insertionSort _ (enum_pairwise_lt jobs), by simp [mkJob]⟩

/-- C10: a job constructed with an explicit placement of 0 (falsy in
Python) is identical to one constructed with an absent placement —
both get the sentinel 9999 — and therefore sorts after any job whose
explicit placement lies between 1 and 9998, even when the falsy-
placement job came first in the input. -/
theorem falsy_placement_like_absent (w s p c : String) (q : Option ℚ)
    (pl : Int) (h1 : 1 ≤ pl) (h2 : pl ≤ 9998) :
    mkJob w s p c (some 0) q = mkJob w s p c none q
    ∧ (mkJob w s p c (some 0) q).placement = 9999
    ∧ (mkJob w s p c (some pl) q).placement <
        (mkJob w s p c (some 0) q).placement
    ∧ sortJobs [mkJob w s p c (some 0) q, mkJob w s p c (some pl) q] =
        [mkJob w s p c (some pl) q, mkJob w s p c (some 0) q] := by
  have hpl0 : ¬ pl = 0 := by omega
  have hE : (mkJob w s p c (some pl) q).placement = pl := by
    simp [mkJob, hpl0]
  have hZ : (mkJob w s p c (some 0) q).placement = 9999 := by
    simp [mkJob]
  refine ⟨by simp [mkJob], hZ, ?_, ?_⟩
  · rw [hE, hZ]
    omega
  · have hn : ¬ jobLE (mkJob w s p c (some 0) q) (mkJob w s p c (some pl) q) := by
      show ¬ ((mkJob w s p c (some 0) q).placement ≤
        (mkJob w s p c (some pl) q).placement)
      rw [hE, hZ]
      omega
    simp [sortJobs, List.insertionSort, List.orderedInsert, hn]

/-- Witness for `falsy_placement_like_absent` at placement 5. -/
theorem falsy_placement_like_absent_witness :
    (1 : Int) ≤ 5 ∧ (5 : Int) ≤ 9998
    ∧ (mkJob "w" "s" "p" "c" (some 0) none = mkJob "w" "s" "p" "c" none none
        ∧ (mkJob "w" "s" "p" "c" (some 0) none).placement = 9999
        ∧ (mkJob "w" "s" "p" "c" (some 5) none).placement <
            (mkJob "w" "s" "p" "c" (some 0) none).placement
        ∧ sortJobs [mkJob "w" "s" "p" "c" (some 0) none,
                    mkJob "w" "s" "p" "c" (some 5) none] =
            [mkJob "w" "s" "p" "c" (some 5) none,
             mkJob "w" "s" "p" "c" (some 0) none]) :=
  ⟨by norm_num, by norm_num,
    falsy_placement_like_absent "w" "s" "p" "c" none 5 (by norm_num) (by norm_num)⟩

end DynamicGantt
